import Mathlib

/-!
# Verification of `sp_experiment.define_payoff_settings`

A shallow embedding, in Lean 4, of the payoff-setting generation and balancing
code of the `sp_experiment` repository (`sp_experiment/define_payoff_settings.py`),
together with theorems settling the specification claims about it.

Modelling conventions:

* Python/numpy floating point numbers are modelled as exact rationals (`ℚ`).
  Every numeric value manipulated by this code is a small integer or a multiple
  of `1/10`, and the code rounds to 14 decimals precisely so that float noise
  is erased at every comparison point; the rational model realises the same
  values exactly.  `np.round` (round-half-to-even) is modelled exactly by `rint`.
* numpy arrays are modelled as lists; a payoff-settings row (8 columns) is a
  `List ℚ` of length 8 in the source's column order
  `mag_l1, mag_l2, prob_l1, prob_l2, mag_r1, mag_r2, prob_r1, prob_r2`.
* Python exceptions (`ValueError`, `IndexError`, `KeyError`, `AssertionError`,
  `RuntimeError`) are modelled with `Except String`.
* The NaN markers that `get_payoff_dict` strips (`_nanint`) serve only the
  out-of-scope description task (`descriptions.py`); rows here are always
  rational-valued, so the NaN branch of `_nanint` is never taken and the final
  `isnan` filters keep every element.
-/

set_option allowUnsafeReducibility true
attribute [semireducible] Rat.add Rat.mul Rat.inv Rat.sub Rat.ofScientific
set_option maxRecDepth 200000

deriving instance DecidableEq for Except

/-- A payoff-settings row: 8 rational columns, in the source's order. -/
abbrev Row := List ℚ

/-- Column access `row[i]` (all source accesses are in bounds; out-of-range
reads default to 0, which never occurs on the rows this code builds). -/
def atq (r : Row) (i : ℕ) : ℚ := r.getD i 0

/-- Model of `np.rint` on an exact rational: round half to even. -/
def rint (x : ℚ) : ℤ :=
  let f := ⌊x⌋
  let r := x - f
  if r < 1/2 then f
  else if 1/2 < r then f + 1
  else if f % 2 = 0 then f else f + 1

/-- Model of `np.round(x, 14)`: round half to even at the 14th decimal. -/
def round14 (x : ℚ) : ℚ := (rint (x * 10 ^ 14) : ℚ) / 10 ^ 14

/-- Model of Python `int(x)`: truncation toward zero. -/
def pyint (x : ℚ) : ℤ := if 0 ≤ x then ⌊x⌋ else -⌊-x⌋

/-! ## The settings enumerator: `get_payoff_settings`

Faithful embedding of `get_payoff_settings(ev_diff)`
(`define_payoff_settings.py`, lines 18-134). -/

/-- Model of `np.arange(0.1, 1, 0.1)`: the nine probabilities 0.1, …, 0.9 (exact). -/
def initial_probs : List ℚ := (List.range 9).map (fun k => ((k : ℚ) + 1) / 10)

/-- Model of `np.arange(1, 10)`: the nine magnitudes 1, …, 9. -/
def initial_mags : List ℚ := (List.range 9).map (fun k => (k : ℚ) + 1)

/-- Model of `itertools.combinations(l, 2)` in its lexicographic order. -/
def combinations2 : List α → List (α × α)
  | [] => []
  | x :: xs => xs.map (fun y => (x, y)) ++ combinations2 xs

/-- Array `single_mags`: the 36 unordered magnitude pairs. -/
def single_mags : List (ℚ × ℚ) := combinations2 initial_mags

/-- Array `single_probs`: each probability paired with its complement. -/
def single_probs : List (ℚ × ℚ) := initial_probs.map (fun p => (p, 1 - p))

/-- Model of `np.repeat(single_mags, repeats=len(single_probs), axis=0)`. -/
def mags : List (ℚ × ℚ) := single_mags.flatMap (fun m => List.replicate single_probs.length m)

/-- Model of `np.tile(single_probs, reps=(len(single_mags), 1))`. -/
def probs : List (ℚ × ℚ) := (List.replicate single_mags.length single_probs).flatten

/-- Array `single_distr`: 324 rows `[mag1, mag2, prob1, prob2]`. -/
def single_distr : List Row :=
  List.zipWith (fun (m : ℚ × ℚ) (p : ℚ × ℚ) => [m.1, m.2, p.1, p.2]) mags probs

/-- Model of `np.roll(l, shift=i, axis=0)`: rotate the rows of `l` to the right by `i`. -/
def rollRight (l : List Row) (i : ℕ) : List Row :=
  l.drop (l.length - i % l.length) ++ l.take (l.length - i % l.length)

/-- Array `two_distrs`: for each shift `i`, zip the rolled copy of `single_distr`
against `single_distr` and flatten each pair to one 8-column row (the source
fills block `i` of a preallocated `(36*9)**2 × 8` array with exactly these
rows, so the concatenation of the blocks is the whole array). -/
def two_distrs : List Row :=
  (List.range single_distr.length).flatMap
    (fun i => List.zipWith (· ++ ·) (rollRight single_distr i) single_distr)

/-- The absolute expected-value difference of a row
(`abs(row[0]*row[2] + row[1]*row[3] - (row[4]*row[6] + row[5]*row[7]))`). -/
def ev_abs_diff (r : Row) : ℚ :=
  |atq r 0 * atq r 2 + atq r 1 * atq r 3 - (atq r 4 * atq r 6 + atq r 5 * atq r 7)|

/-- The four magnitudes of a row, columns 0, 1, 4, 5. -/
def mags4 (r : Row) : List ℚ := [atq r 0, atq r 1, atq r 4, atq r 5]

/-- Test `len(np.unique(row[[0, 1, 4, 5]])) == 4`. -/
def distinct4 (r : Row) : Bool := (mags4 r).dedup.length == 4

/-- The dominated-options deletion mask of lines 122-129: `1` exactly when one
side's both magnitudes strictly exceed the other side's both magnitudes. -/
def dominatedb (r : Row) : Bool :=
  if atq r 0 > atq r 4 ∧ atq r 0 > atq r 5 then
    decide (atq r 1 > atq r 4 ∧ atq r 1 > atq r 5)
  else if atq r 0 < atq r 4 ∧ atq r 0 < atq r 5 then
    decide (atq r 1 < atq r 4 ∧ atq r 1 < atq r 5)
  else false

/-- The EV-filtered, rounded rows (lines 87-102): keep the rows of `two_distrs`
whose absolute EV difference, rounded to 14 decimals, equals the raw `ev_diff`
argument, then round every entry of the surviving rows to 14 decimals. -/
def ev_payoff_settings (ev_diff : ℚ) : List Row :=
  ((two_distrs.filter (fun r => round14 (ev_abs_diff r) == ev_diff)).map
    (fun r => r.map round14))

/-- Model of `get_payoff_settings(ev_diff)` (lines 18-134).  When no row survives the
four-distinct-magnitudes filter, the accumulator is still `None` at line 122
and `payoff_settings.shape` raises `AttributeError`; this is the error case. -/
def get_payoff_settings (ev_diff : ℚ) : Except String (List Row) :=
  let ps := (ev_payoff_settings ev_diff).filter distinct4
  if ps.isEmpty then
    .error ("AttributeError: 'NoneType' object has no attribute 'shape'")
  else
    .ok (ps.filter (fun r => !dominatedb r))

/-- The rows returned by `get_payoff_settings ev_diff` (empty when it raises). -/
def poolOf (ev_diff : ℚ) : List Row := ((get_payoff_settings ev_diff).toOption).getD []

/-! ## Basic facts about the rounding model -/

/-- Function `rint` is the identity on integers. -/
theorem rint_intCast (n : ℤ) : rint (n : ℚ) = n := by
  unfold rint
  norm_num [Int.floor_intCast]

/-- Function `round14` sends every rational to a multiple of `10⁻¹⁴`. -/
theorem round14_eq_div (x : ℚ) : round14 x = (rint (x * 10 ^ 14) : ℚ) / 10 ^ 14 := rfl

/-- Rounding to 14 decimals is idempotent. -/
theorem round14_idem (x : ℚ) : round14 (round14 x) = round14 x := by
  unfold round14
  have h : ((rint (x * 10 ^ 14) : ℚ) / 10 ^ 14) * 10 ^ 14 = (rint (x * 10 ^ 14) : ℚ) := by
    field_simp
  rw [h, rint_intCast]

/-- A rational whose tenfold is an integer (every value the enumerator
manipulates has this form). -/
def tenthsB (x : ℚ) : Bool := (x * 10).den == 1

theorem tenthsB_exists {x : ℚ} (h : tenthsB x = true) : ∃ n : ℤ, x = (n : ℚ) / 10 := by
  unfold tenthsB at h
  have hden : (x * 10).den = 1 := by simpa using h
  refine ⟨(x * 10).num, ?_⟩
  have h10 : (x * 10) = ((x * 10).num : ℚ) := by
    conv_lhs => rw [← Rat.num_div_den (x * 10)]
    rw [hden]
    norm_num
  rw [eq_div_iff (by norm_num : (10 : ℚ) ≠ 0)]
  linarith [h10]

/-- Function `round14` is the identity on multiples of `1/10`. -/
theorem round14_tenths {x : ℚ} (h : tenthsB x = true) : round14 x = x := by
  obtain ⟨n, rfl⟩ := tenthsB_exists h
  unfold round14
  have h1 : (n : ℚ) / 10 * 10 ^ 14 = ((n * 10 ^ 13 : ℤ) : ℚ) := by
    push_cast
    ring
  rw [h1, rint_intCast]
  push_cast
  ring

/-! ## Shape invariants of the enumerated rows -/

set_option maxRecDepth 20000 in
/-- Every entry of every `single_distr` row is a multiple of `1/10`. -/
theorem single_distr_tenths : single_distr.all (fun r => r.all tenthsB) = true := by decide

theorem mem_rollRight {l : List Row} {i : ℕ} {a : Row} (h : a ∈ rollRight l i) : a ∈ l := by
  unfold rollRight at h
  rcases List.mem_append.mp h with h' | h'
  · exact (List.drop_sublist _ _).mem h'
  · exact (List.take_sublist _ _).mem h'

theorem of_mem_zipWith {f : α → β → γ} {A : List α} {B : List β} {x : γ}
    (h : x ∈ List.zipWith f A B) : ∃ a ∈ A, ∃ b ∈ B, x = f a b := by
  induction A generalizing B with
  | nil => simp at h
  | cons a as ih =>
    cases B with
    | nil => simp at h
    | cons b bs =>
      rcases List.mem_cons.mp h with h' | h'
      · exact ⟨a, List.mem_cons_self .., b, List.mem_cons_self .., h'⟩
      · obtain ⟨a', ha', b', hb', hx⟩ := ih h'
        exact ⟨a', List.mem_cons_of_mem _ ha', b', List.mem_cons_of_mem _ hb', hx⟩

/-- Every row of `two_distrs` is the concatenation of two `single_distr` rows. -/
theorem mem_two_distrs {r : Row} (h : r ∈ two_distrs) :
    ∃ a ∈ single_distr, ∃ b ∈ single_distr, r = a ++ b := by
  unfold two_distrs at h
  obtain ⟨i, _, hr⟩ := List.mem_flatMap.mp h
  obtain ⟨a, ha, b, hb, hx⟩ := of_mem_zipWith hr
  exact ⟨a, mem_rollRight ha, b, hb, hx⟩

/-- Every entry of every `two_distrs` row is a multiple of `1/10`. -/
theorem two_distrs_tenths {r : Row} (h : r ∈ two_distrs) : ∀ x ∈ r, tenthsB x = true := by
  obtain ⟨a, ha, b, hb, rfl⟩ := mem_two_distrs h
  have hall := List.all_eq_true.mp single_distr_tenths
  intro x hx
  rcases List.mem_append.mp hx with h' | h'
  · exact List.all_eq_true.mp (hall a ha) x h'
  · exact List.all_eq_true.mp (hall b hb) x h'

/-- Rounding every entry of a `two_distrs` row to 14 decimals does nothing. -/
theorem map_round14_id {r : Row} (h : ∀ x ∈ r, tenthsB x = true) : r.map round14 = r := by
  have : ∀ x ∈ r, round14 x = id x := fun x hx => round14_tenths (h x hx)
  rw [List.map_congr_left this, List.map_id]

/-- Membership in the returned pool, decomposed along the source's filters. -/
theorem mem_poolOf {e : ℚ} {r : Row} (h : r ∈ poolOf e) :
    r ∈ two_distrs ∧ round14 (ev_abs_diff r) = e ∧ distinct4 r = true ∧
      dominatedb r = false := by
  unfold poolOf get_payoff_settings at h
  by_cases hemp : ((ev_payoff_settings e).filter distinct4).isEmpty
  · rw [if_pos hemp] at h
    simp [Except.toOption] at h
  · rw [if_neg hemp] at h
    simp only [Except.toOption, Option.getD_some] at h
    have hdom := List.of_mem_filter h
    have h2 : r ∈ (ev_payoff_settings e).filter distinct4 := List.mem_of_mem_filter h
    have hdis := List.of_mem_filter h2
    have h3 : r ∈ ev_payoff_settings e := List.mem_of_mem_filter h2
    unfold ev_payoff_settings at h3
    obtain ⟨r0, hr0, hmap⟩ := List.mem_map.mp h3
    have hr0t : r0 ∈ two_distrs := List.mem_of_mem_filter hr0
    have hev : round14 (ev_abs_diff r0) = e := by
      have := List.of_mem_filter hr0
      simpa using this
    have hid : r0.map round14 = r0 := map_round14_id (two_distrs_tenths hr0t)
    have hrr0 : r = r0 := by rw [← hmap, hid]
    subst hrr0
    refine ⟨hr0t, hev, hdis, ?_⟩
    simpa using hdom

/-- C1.  For every `ev_diff`, every row returned by
`get_payoff_settings ev_diff` has its absolute expected-value difference,
recomputed from the row's stored columns and rounded to 14 decimals, equal to
`ev_diff` rounded to 14 decimals. -/
theorem C1_ev_difference_invariant (ev_diff : ℚ) :
    (poolOf ev_diff).all
      (fun r => round14 (ev_abs_diff r) == round14 ev_diff) = true := by
  rw [List.all_eq_true]
  intro r hr
  obtain ⟨_, heq, _, _⟩ := mem_poolOf hr
  have hfix : round14 ev_diff = ev_diff := by
    rw [← heq, round14_idem]
  rw [hfix, heq]
  simp

/-- The no-dominance property exactly as the claim states it: on no returned
row are both of one side's magnitudes strictly greater (nor both strictly
less) than both of the other side's magnitudes. -/
def not_dominated_prop (r : Row) : Prop :=
  ¬(atq r 0 > atq r 4 ∧ atq r 0 > atq r 5 ∧ atq r 1 > atq r 4 ∧ atq r 1 > atq r 5) ∧
  ¬(atq r 0 < atq r 4 ∧ atq r 0 < atq r 5 ∧ atq r 1 < atq r 4 ∧ atq r 1 < atq r 5)

instance (r : Row) : Decidable (not_dominated_prop r) := by
  unfold not_dominated_prop
  infer_instance

theorem dominatedb_eq_false {r : Row} (h : dominatedb r = false) : not_dominated_prop r := by
  unfold dominatedb at h
  constructor
  · rintro ⟨h1, h2, h3, h4⟩
    rw [if_pos ⟨h1, h2⟩] at h
    simp only [decide_eq_false_iff_not] at h
    exact h ⟨h3, h4⟩
  · rintro ⟨h1, h2, h3, h4⟩
    have hneg : ¬(atq r 0 > atq r 4 ∧ atq r 0 > atq r 5) := by
      rintro ⟨hh, _⟩
      exact absurd h1 (not_lt.mpr hh.le)
    rw [if_neg hneg, if_pos ⟨h1, h2⟩] at h
    simp only [decide_eq_false_iff_not] at h
    exact h ⟨h3, h4⟩

/-- C6.  For every `ev_diff`, no row returned by `get_payoff_settings` is
first-order dominated: on no row are both magnitudes of one side strictly
greater than both magnitudes of the other side (nor both strictly less). -/
theorem C6_no_dominance (ev_diff : ℚ) :
    (poolOf ev_diff).all (fun r => decide (not_dominated_prop r)) = true := by
  rw [List.all_eq_true]
  intro r hr
  obtain ⟨_, _, _, hdom⟩ := mem_poolOf hr
  exact decide_eq_true (dominatedb_eq_false hdom)

theorem distinct4_nodup {r : Row} (h : distinct4 r = true) : (mags4 r).Nodup := by
  unfold distinct4 at h
  have hlen : (mags4 r).dedup.length = 4 := by simpa using h
  have hsub : List.Sublist (mags4 r).dedup (mags4 r) := List.dedup_sublist _
  have heq : (mags4 r).dedup = mags4 r := hsub.eq_of_length (by rw [hlen]; rfl)
  rw [← List.dedup_eq_self]
  exact heq

/-- C7.  For every `ev_diff`, every returned row has pairwise-distinct
magnitudes in columns 0, 1, 4, 5 (exactly 4 distinct values). -/
theorem C7_distinct_magnitudes (ev_diff : ℚ) :
    (poolOf ev_diff).all (fun r => decide ((mags4 r).Nodup)) = true := by
  rw [List.all_eq_true]
  intro r hr
  obtain ⟨_, _, hdis, _⟩ := mem_poolOf hr
  exact decide_eq_true (distinct4_nodup hdis)

/-! ## Pairwise distinctness of the pool rows (claim C10) -/

/-- Injective integer key for the `single_distr` rows `[m1, m2, p, 1 - p]`:
every entry is a multiple of `1/10` with numerator of `x * 10` below 100, so
packing the four numerators in base 100 separates distinct rows. -/
def rowKey (r : Row) : ℤ :=
  ((atq r 0 * 10).num * 100 ^ 3) + ((atq r 1 * 10).num * 100 ^ 2) +
    ((atq r 2 * 10).num * 100) + (atq r 3 * 10).num

/-- Boolean strict-ascending-chain check; the `single_distr` construction
enumerates magnitude pairs in lexicographically increasing order and
probabilities in increasing order, so the row keys come out strictly sorted. -/
def chainLtB : List ℤ → Bool
  | [] => true
  | [_] => true
  | a :: b :: rest => decide (a < b) && chainLtB (b :: rest)

theorem chainLtB_chain' : ∀ {l : List ℤ}, chainLtB l = true → l.Chain' (· < ·)
  | [], _ => List.chain'_nil
  | [_], _ => List.chain'_singleton _
  | a :: b :: rest, h => by
      rw [chainLtB, Bool.and_eq_true, decide_eq_true_eq] at h
      exact (List.chain'_cons).mpr ⟨h.1, chainLtB_chain' h.2⟩

theorem sorted_keys_nodup {l : List Row} (h : chainLtB (l.map rowKey) = true) :
    l.Nodup :=
  List.Nodup.of_map rowKey
    (((List.chain'_iff_pairwise).mp (chainLtB_chain' h)).imp ne_of_lt)

theorem single_distr_nodup : single_distr.Nodup :=
  sorted_keys_nodup (by decide)

theorem single_distr_length : single_distr.length = 324 := by decide

theorem single_distr_len4 {a : Row} (h : a ∈ single_distr) : a.length = 4 := by
  unfold single_distr at h
  obtain ⟨m, _, p, _, rfl⟩ := of_mem_zipWith h
  rfl

theorem length_rollRight (l : List Row) (i : ℕ) : (rollRight l i).length = l.length := by
  unfold rollRight
  simp only [List.length_append, List.length_drop, List.length_take]
  omega

theorem zipWith_drop_append {A B : List Row} (h4 : ∀ a ∈ A, a.length = 4) :
    (List.zipWith (· ++ ·) A B).map (List.drop 4) = B.take A.length := by
  induction A generalizing B with
  | nil => simp
  | cons a as ih =>
    cases B with
    | nil => simp
    | cons b bs =>
      simp only [List.zipWith_cons_cons, List.map_cons, List.length_cons, List.take_succ_cons]
      have h1 : List.drop 4 (a ++ b) = b := by
        rw [← h4 a (List.mem_cons_self ..)]
        exact List.drop_left a b
      rw [h1, ih (fun x hx => h4 x (List.mem_cons_of_mem _ hx))]

/-- Each block of `two_distrs` (one shift `i`) has pairwise-distinct rows. -/
theorem block_nodup (i : ℕ) :
    (List.zipWith (· ++ ·) (rollRight single_distr i) single_distr).Nodup := by
  apply List.Nodup.of_map (List.drop 4)
  rw [zipWith_drop_append (fun a ha => single_distr_len4 (mem_rollRight ha))]
  exact (single_distr_nodup.sublist (List.take_sublist _ _))

theorem rollRight_eq_rotate (l : List Row) (i : ℕ) :
    rollRight l i = l.rotate (l.length - i % l.length) := by
  rw [List.rotate_eq_drop_append_take (Nat.sub_le _ _)]
  rfl

theorem get_congr_list {l l' : List Row} (h : l = l') {k : ℕ}
    (hk : k < l.length) : l.get ⟨k, hk⟩ = l'.get ⟨k, h ▸ hk⟩ := by
  subst h
  rfl

/-- Rows in distinct blocks of `two_distrs` differ. -/
theorem block_disjoint {i j : ℕ} (hi : i < 324) (hj : j < 324) (hij : i ≠ j) :
    ∀ {r : Row}, r ∈ List.zipWith (· ++ ·) (rollRight single_distr i) single_distr →
      r ∈ List.zipWith (· ++ ·) (rollRight single_distr j) single_distr → False := by
  intro r hri hrj
  have hlen : single_distr.length = 324 := single_distr_length
  obtain ⟨⟨k, hk⟩, hik⟩ := List.mem_iff_get.mp hri
  obtain ⟨⟨k', hk'⟩, hjk⟩ := List.mem_iff_get.mp hrj
  have hk1 : k < single_distr.length := by
    simpa [List.length_zipWith, length_rollRight] using hk
  have hk2 : k' < single_distr.length := by
    simpa [List.length_zipWith, length_rollRight] using hk'
  have hkr : k < (rollRight single_distr i).length := by
    rw [length_rollRight]
    exact hk1
  have hkr' : k' < (rollRight single_distr j).length := by
    rw [length_rollRight]
    exact hk2
  rw [List.get_zipWith] at hik hjk
  -- The right halves identify the position: k = k'.
  have hlen4i : ((rollRight single_distr i).get ⟨k, hkr⟩).length = 4 :=
    single_distr_len4 (mem_rollRight (List.get_mem _ _ _))
  have hlen4j : ((rollRight single_distr j).get ⟨k', hkr'⟩).length = 4 :=
    single_distr_len4 (mem_rollRight (List.get_mem _ _ _))
  have hd1 : single_distr.get ⟨k, hk1⟩ = r.drop 4 := by
    rw [← hik]
    exact (List.drop_left' hlen4i).symm
  have hd2 : single_distr.get ⟨k', hk2⟩ = r.drop 4 := by
    rw [← hjk]
    exact (List.drop_left' hlen4j).symm
  have hkk' : k = k' := by
    have h := single_distr_nodup.get_inj_iff.mp (hd1.trans hd2.symm)
    exact Fin.val_eq_of_eq h
  subst hkk'
  -- The left halves then force the shifts to coincide.
  have ht1 : (rollRight single_distr i).get ⟨k, hkr⟩ = r.take 4 := by
    rw [← hik]
    exact (List.take_left' hlen4i).symm
  have ht2 : (rollRight single_distr j).get ⟨k, hkr'⟩ = r.take 4 := by
    rw [← hjk]
    exact (List.take_left' hlen4j).symm
  have e1 := (get_congr_list (rollRight_eq_rotate single_distr i) hkr).symm.trans
    (ht1.trans ht2.symm)
  have e2 := e1.trans (get_congr_list (rollRight_eq_rotate single_distr j) hkr')
  rw [List.get_rotate, List.get_rotate] at e2
  have hidx := Fin.val_eq_of_eq (single_distr_nodup.get_inj_iff.mp e2)
  simp only [hlen] at hidx
  omega

/-- The 104 976 raw two-sided rows are pairwise distinct. -/
theorem two_distrs_nodup : two_distrs.Nodup := by
  unfold two_distrs
  rw [List.nodup_flatMap]
  constructor
  · intro i _
    exact block_nodup i
  · rw [List.pairwise_iff_getElem]
    intro a b ha hb hab
    simp only [List.length_range] at ha hb
    rw [single_distr_length] at ha hb
    simp only [List.getElem_range, Function.onFun]
    intro r hra hrb
    exact block_disjoint ha hb (Nat.ne_of_lt hab) hra hrb

/-- C10.  For every `ev_diff`, the rows of the returned pool are pairwise
distinct as 8-tuples, so locating a row by exact value equality against the
whole pool is unambiguous. -/
theorem C10_pool_rows_pairwise_distinct (ev_diff : ℚ) : (poolOf ev_diff).Nodup := by
  unfold poolOf get_payoff_settings
  by_cases hemp : ((ev_payoff_settings ev_diff).filter distinct4).isEmpty
  · rw [if_pos hemp]
    simp [Except.toOption]
  · rw [if_neg hemp]
    simp only [Except.toOption, Option.getD_some]
    apply List.Nodup.filter
    apply List.Nodup.filter
    unfold ev_payoff_settings
    have hmapid : (two_distrs.filter
        (fun r => round14 (ev_abs_diff r) == ev_diff)).map (fun r => r.map round14)
        = two_distrs.filter (fun r => round14 (ev_abs_diff r) == ev_diff) := by
      have : ∀ r ∈ two_distrs.filter (fun r => round14 (ev_abs_diff r) == ev_diff),
          r.map round14 = id r :=
        fun r hr => map_round14_id (two_distrs_tenths (List.mem_of_mem_filter hr))
      rw [List.map_congr_left this, List.map_id]
    rw [hmapid]
    exact two_distrs_nodup.filter _

/-! ## Setting-to-reward-list conversion: `get_payoff_dict` (lines 137-173)

`_nanint(x)` is `int(x)` on non-NaN input (truncation toward zero), and Python
list replication `[v] * n` yields `n` copies (none for negative `n`).  The
final `isnan` filters keep every element of a rational-valued row, so they are
omitted; the NaN marker rows served only by `descriptions.py` are out of scope
here. -/

/-- Model of `get_payoff_dict(payoff_setting)`: the pair (key `0`, key `1`) of outcome
lists, each magnitude replicated `int(prob * 10)` times. -/
def get_payoff_dict (payoff_setting : Row) : List ℤ × List ℤ :=
  let left_distr :=
    List.replicate (pyint (atq payoff_setting 2 * 10)).toNat (pyint (atq payoff_setting 0)) ++
    List.replicate (pyint (atq payoff_setting 3 * 10)).toNat (pyint (atq payoff_setting 1))
  let right_distr :=
    List.replicate (pyint (atq payoff_setting 6 * 10)).toNat (pyint (atq payoff_setting 4)) ++
    List.replicate (pyint (atq payoff_setting 7 * 10)).toNat (pyint (atq payoff_setting 5))
  (left_distr, right_distr)

/-- A single-side distribution row as built by the enumerator: two distinct
integer magnitudes in `1..9` and a probability pair `(k/10, 1 - k/10)`. -/
def baseShapeB : Row → Bool
  | [m1, m2, p1, p2] =>
    (List.range 9).any (fun i => m1 == ((i : ℚ) + 1)) &&
    (List.range 9).any (fun i => m2 == ((i : ℚ) + 1)) &&
    (m1 != m2) &&
    (List.range 9).any (fun k => p1 == ((k : ℚ) + 1) / 10) &&
    (p2 == 1 - p1)
  | _ => false

set_option maxHeartbeats 1000000 in
theorem single_distr_shape : single_distr.all baseShapeB = true := by decide

theorem baseShapeB_elim {a : Row} (h : baseShapeB a = true) :
    ∃ a1 a2 k : ℕ, 1 ≤ a1 ∧ a1 ≤ 9 ∧ 1 ≤ a2 ∧ a2 ≤ 9 ∧ 1 ≤ k ∧ k ≤ 9 ∧ a1 ≠ a2 ∧
      a = [(a1 : ℚ), (a2 : ℚ), (k : ℚ) / 10, 1 - (k : ℚ) / 10] := by
  match a with
  | [] => simp [baseShapeB] at h
  | [_] => simp [baseShapeB] at h
  | [_, _] => simp [baseShapeB] at h
  | [_, _, _] => simp [baseShapeB] at h
  | _ :: _ :: _ :: _ :: _ :: _ => simp [baseShapeB] at h
  | [m1, m2, p1, p2] =>
    simp only [baseShapeB, Bool.and_eq_true, List.any_eq_true, List.mem_range,
      beq_iff_eq, bne_iff_ne] at h
    obtain ⟨⟨⟨⟨⟨i1, hi1, hm1⟩, i2, hi2, hm2⟩, hne⟩, kk, hkk, hp1⟩, hp2⟩ := h
    refine ⟨i1 + 1, i2 + 1, kk + 1, by omega, by omega, by omega, by omega, by omega,
      by omega, ?_, ?_⟩
    · intro hcontra
      apply hne
      rw [hm1, hm2]
      have h12 : (i1 : ℕ) = i2 := by omega
      rw [h12]
    · rw [hm1, hm2, hp1, hp2, hp1]
      push_cast
      norm_num

theorem pyint_natCast (n : ℕ) : pyint (n : ℚ) = (n : ℤ) := by
  unfold pyint
  rw [if_pos (by positivity)]
  exact_mod_cast Int.floor_natCast n

theorem rint_natCast (n : ℕ) : rint (n : ℚ) = (n : ℤ) := by
  have := rint_intCast (n : ℤ)
  simpa using this

theorem count_replicate_pair {x y : ℤ} (n m : ℕ) (hne : x ≠ y) :
    (List.replicate n x ++ List.replicate m y).count x = n ∧
    (List.replicate n x ++ List.replicate m y).count y = m ∧
    (List.replicate n x ++ List.replicate m y).length = n + m := by
  refine ⟨?_, ?_, by simp⟩
  · simp [List.count_append, List.count_replicate, hne, Ne.symm hne]
  · simp [List.count_append, List.count_replicate, hne, Ne.symm hne]

/-- The conversion round trip on one side: magnitudes `a1 ≠ a2` (integers) with
probability pair `(k/10, 1-k/10)`, `1 ≤ k ≤ 9`. -/
theorem roundtrip_side (a1 a2 k : ℕ) (hk1 : 1 ≤ k) (hk9 : k ≤ 9) (hne : a1 ≠ a2) :
    let L := List.replicate (pyint ((k : ℚ) / 10 * 10)).toNat (pyint (a1 : ℚ)) ++
      List.replicate (pyint ((1 - (k : ℚ) / 10) * 10)).toNat (pyint (a2 : ℚ))
    L.length = 10 ∧ L.count (pyint (a1 : ℚ)) = k ∧ L.count (pyint (a2 : ℚ)) = 10 - k := by
  intro L
  have h1 : (k : ℚ) / 10 * 10 = ((k : ℕ) : ℚ) := by
    field_simp
  have h2 : (1 - (k : ℚ) / 10) * 10 = ((10 - k : ℕ) : ℚ) := by
    rw [Nat.cast_sub (by omega)]
    push_cast
    ring
  have hzne : pyint (a1 : ℚ) ≠ pyint (a2 : ℚ) := by
    rw [pyint_natCast, pyint_natCast]
    exact_mod_cast hne
  have hL : L = List.replicate k (pyint (a1 : ℚ)) ++
      List.replicate (10 - k) (pyint (a2 : ℚ)) := by
    show List.replicate (pyint ((k : ℚ) / 10 * 10)).toNat _ ++
      List.replicate (pyint ((1 - (k : ℚ) / 10) * 10)).toNat _ = _
    simp only [h1, h2, pyint_natCast, Int.toNat_natCast]
  obtain ⟨c1, c2, clen⟩ := count_replicate_pair (x := pyint (a1 : ℚ))
    (y := pyint (a2 : ℚ)) k (10 - k) hzne
  rw [hL]
  exact ⟨by rw [clen]; omega, c1, c2⟩

/-- The round-trip check exactly as the claim states it: both lists have 10
elements, each magnitude appears `round(prob * 10)` times, and count/10
recovers each stored probability. -/
def roundtripB (r : Row) : Bool :=
  ((get_payoff_dict r).1.length == 10) && ((get_payoff_dict r).2.length == 10) &&
  ((get_payoff_dict r).1.count (pyint (atq r 0)) == (rint (atq r 2 * 10)).toNat) &&
  ((get_payoff_dict r).1.count (pyint (atq r 1)) == (rint (atq r 3 * 10)).toNat) &&
  ((get_payoff_dict r).2.count (pyint (atq r 4)) == (rint (atq r 6 * 10)).toNat) &&
  ((get_payoff_dict r).2.count (pyint (atq r 5)) == (rint (atq r 7 * 10)).toNat) &&
  (((get_payoff_dict r).1.count (pyint (atq r 0)) : ℚ) / 10 == atq r 2) &&
  (((get_payoff_dict r).1.count (pyint (atq r 1)) : ℚ) / 10 == atq r 3) &&
  (((get_payoff_dict r).2.count (pyint (atq r 4)) : ℚ) / 10 == atq r 6) &&
  (((get_payoff_dict r).2.count (pyint (atq r 5)) : ℚ) / 10 == atq r 7)

set_option maxHeartbeats 1000000 in
/-- C8.  For every `ev_diff` and every returned pool row, `get_payoff_dict`
yields two lists of exactly 10 magnitudes in which each side's magnitude
appears exactly `round(prob * 10)` times, so count/10 recovers every stored
probability. -/
theorem C8_conversion_round_trip (ev_diff : ℚ) :
    (poolOf ev_diff).all roundtripB = true := by
  rw [List.all_eq_true]
  intro r hr
  obtain ⟨ht, _, _, _⟩ := mem_poolOf hr
  obtain ⟨a, ha, b, hb, rfl⟩ := mem_two_distrs ht
  have hsa := List.all_eq_true.mp single_distr_shape a ha
  have hsb := List.all_eq_true.mp single_distr_shape b hb
  obtain ⟨a1, a2, k1, _, _, _, _, hk11, hk19, hane, rfl⟩ := baseShapeB_elim hsa
  obtain ⟨b1, b2, k2, _, _, _, _, hk21, hk29, hbne, rfl⟩ := baseShapeB_elim hsb
  obtain ⟨hlenL, hcL1, hcL2⟩ := roundtrip_side a1 a2 k1 hk11 hk19 hane
  obtain ⟨hlenR, hcR1, hcR2⟩ := roundtrip_side b1 b2 k2 hk21 hk29 hbne
  have e1 : (k1 : ℚ) / 10 * 10 = ((k1 : ℕ) : ℚ) := by field_simp
  have e2 : (1 - (k1 : ℚ) / 10) * 10 = ((10 - k1 : ℕ) : ℚ) := by
    rw [Nat.cast_sub (by omega)]
    push_cast
    ring
  have e3 : (k2 : ℚ) / 10 * 10 = ((k2 : ℕ) : ℚ) := by field_simp
  have e4 : (1 - (k2 : ℚ) / 10) * 10 = ((10 - k2 : ℕ) : ℚ) := by
    rw [Nat.cast_sub (by omega)]
    push_cast
    ring
  simp only [roundtripB, get_payoff_dict, atq, List.cons_append, List.nil_append,
    List.getD_cons_succ, List.getD_cons_zero, Bool.and_eq_true, beq_iff_eq]
  simp only [e1, e2, e3, e4, pyint_natCast, rint_natCast, Int.toNat_natCast]
    at hcL1 hcL2 hcR1 hcR2 hlenL hlenR ⊢
  refine ⟨⟨⟨⟨⟨⟨⟨⟨⟨?_, ?_⟩, ?_⟩, ?_⟩, ?_⟩, ?_⟩, ?_⟩, ?_⟩, ?_⟩, ?_⟩
  · exact hlenL
  · exact hlenR
  · exact hcL1
  · exact hcL2
  · exact hcR1
  · exact hcR2
  · rw [hcL1]
  · rw [hcL2, Nat.cast_sub (by omega : k1 ≤ 10)]
    push_cast
    ring
  · rw [hcR1]
  · rw [hcR2, Nat.cast_sub (by omega : k2 ≤ 10)]
    push_cast
    ring

/-- C9 counterexample.  On the row
`[1, 2, 0.25, 0.75, 3, 4, 0.5, 0.5]`, whose probability `0.25` times 10 is not
a whole number, `get_payoff_dict` raises nothing: it silently truncates
`int(0.25 * 10) = 2` and `int(0.75 * 10) = 7` and returns a 9-element left
list, contradicting the claim that a non-whole replication count is rejected
by an assertion before use. -/
theorem C9_counterexample_no_validation :
    get_payoff_dict [1, 2, 1/4, 3/4, 3, 4, 1/2, 1/2] =
      ([1, 1, 2, 2, 2, 2, 2, 2, 2], [3, 3, 3, 3, 3, 4, 4, 4, 4, 4]) ∧
    (get_payoff_dict [1, 2, 1/4, 3/4, 3, 4, 1/2, 1/2]).1.length = 9 := by
  constructor
  · decide
  · decide

/-- C9 amended: `get_payoff_dict` performs no whole-number validation at
all.  For every input row it proceeds, replicating each magnitude
`int(prob * 10)` times (truncation toward zero), so each side's list length is
the sum of the two truncated counts. -/
theorem C9_amended_truncation (m1 m2 p1 p2 m3 m4 p3 p4 : ℚ) :
    (get_payoff_dict [m1, m2, p1, p2, m3, m4, p3, p4]).1.length =
        (pyint (p1 * 10)).toNat + (pyint (p2 * 10)).toNat ∧
    (get_payoff_dict [m1, m2, p1, p2, m3, m4, p3, p4]).2.length =
        (pyint (p3 * 10)).toNat + (pyint (p4 * 10)).toNat := by
  constructor
  · simp [get_payoff_dict, atq]
  · simp [get_payoff_dict, atq]

/-! ## numpy legacy `RandomState` (MT19937)

`get_random_payoff_settings` draws all its randomness from
`np.random.RandomState(seed)` objects.  The legacy `RandomState` is modelled
exactly: Knuth-style scalar seeding (`mt19937_seed`), the MT19937 twist and
tempering, `random_interval`'s masked rejection sampling (the primitive behind
`shuffle`), `permutation(n)` as a Fisher–Yates shuffle of `arange(n)` from the
top index down, and `choice(arange(n), k, replace=False)` as the first `k`
entries of a full permutation.  The rejection loop of `random_interval`
terminates only with probability 1, so it is modelled with a fuel parameter
(`rngFuel`); no evaluation in this file comes near exhausting it. -/

/-- MT19937 generator state: 624 32-bit words and a cursor. -/
structure Mt where
  key : List ℕ
  pos : ℕ
  deriving DecidableEq, Repr

/-- Scalar seeding (`mt19937_seed`): `key[0] = seed`,
`key[i] = (1812433253 * (key[i-1] xor (key[i-1] >> 30)) + i) mod 2^32`. -/
def mtSeedKey : ℕ → ℕ → ℕ → List ℕ
  | _, _, 0 => []
  | s, i, n + 1 =>
    s :: mtSeedKey ((1812433253 * (s.xor (s >>> 30)) + i + 1) % 4294967296) (i + 1) n

def mtSeed (seed : ℕ) : Mt := ⟨mtSeedKey (seed % 4294967296) 0 624, 624⟩

/-- One word of the twist: `c xor (y >> 1) xor (y odd ? 0x9908b0df : 0)` where
`y` is the upper bit of `a` glued to the lower 31 bits of `b`. -/
def twistStep (a b c : ℕ) : ℕ :=
  let y := a / 2 ^ 31 * 2 ^ 31 + b % 2 ^ 31
  (c.xor (y / 2)).xor (if y % 2 = 1 then 2567483615 else 0)

/-- Twist phase for indices `227 ≤ i ≤ 622`, where the feedback word
`mt[i - 227]` is one freshly written this twist: `queue` carries the new words
starting at `new[i - 227]`. -/
def twistFeedback : List ℕ → List ℕ → List ℕ → List ℕ
  | a :: as, b :: bs, c :: cs =>
    twistStep a b c :: twistFeedback as bs (cs ++ [twistStep a b c])
  | _, _, _ => []

def zipWith3 (f : ℕ → ℕ → ℕ → ℕ) : List ℕ → List ℕ → List ℕ → List ℕ
  | a :: as, b :: bs, c :: cs => f a b c :: zipWith3 f as bs cs
  | _, _, _ => []

/-- The MT19937 twist (`mt19937_gen`), written functionally but reproducing the
C loop's in-place reads: for `i < 227` the feedback `mt[i + 397]` is an old
word; for `227 ≤ i ≤ 622` it is `new[i - 227]`; the last word reads the old
`mt[623]`, the new `mt[0]` and the new `mt[396]`. -/
def mtTwist (key : List ℕ) : List ℕ :=
  let phase1 := zipWith3 twistStep (key.take 227) (key.drop 1) (key.drop 397)
  let phase2 := twistFeedback ((key.drop 227).take 396) (key.drop 228) phase1
  let newFront := phase1 ++ phase2
  newFront ++ [twistStep (key.getD 623 0) (newFront.getD 0 0) (newFront.getD 396 0)]

/-- MT19937 tempering. -/
def mtTemper (y : ℕ) : ℕ :=
  let y1 := y.xor (y >>> 11)
  let y2 := y1.xor (((y1 <<< 7) % 4294967296).land 2636928640)
  let y3 := y2.xor (((y2 <<< 15) % 4294967296).land 4022730752)
  y3.xor (y3 >>> 18)

/-- Draw one 32-bit word (`rk_random`). -/
def mtNext (s : Mt) : ℕ × Mt :=
  if s.pos ≥ 624 then
    let k := mtTwist s.key
    (mtTemper (k.getD 0 0), ⟨k, 1⟩)
  else
    (mtTemper (s.key.getD s.pos 0), ⟨s.key, s.pos + 1⟩)

/-- Smallest mask of the form `2^k - 1` that is `≥ max`. -/
def rkMask (m : ℕ) : ℕ :=
  let m1 := m.lor (m >>> 1)
  let m2 := m1.lor (m1 >>> 2)
  let m3 := m2.lor (m2 >>> 4)
  let m4 := m3.lor (m3 >>> 8)
  let m5 := m4.lor (m4 >>> 16)
  m5.lor (m5 >>> 32)

def randomIntervalGo (mask mx : ℕ) : ℕ → Mt → Except String (ℕ × Mt)
  | 0, _ => .error ("model: rejection-sampling fuel exhausted")
  | f + 1, st =>
    let vs := mtNext st
    let value := vs.1.land mask
    if value ≤ mx then .ok (value, vs.2) else randomIntervalGo mask mx f vs.2

/-- Model of numpy `random_interval(state, max)`: uniform on `[0, max]` by masked
rejection sampling of 32-bit words. -/
def randomInterval (fuel : ℕ) (s : Mt) (mx : ℕ) : Except String (ℕ × Mt) :=
  if mx = 0 then .ok (0, s)
  else randomIntervalGo (rkMask mx) mx fuel s

/-- Rejection-sampling fuel; each rejection has probability `< 1/2`. -/
def rngFuel : ℕ := 200

def listSwap (l : List α) (i j : ℕ) : List α :=
  match l.get? i, l.get? j with
  | some a, some b => (l.set i b).set j a
  | _, _ => l

/-- The legacy `shuffle` loop: `for i in reversed(range(1, n)):
j = random_interval(state, i); swap(arr[i], arr[j])`. -/
def npShuffleAux (fuel : ℕ) : ℕ → List α → Mt → Except String (List α × Mt)
  | 0, arr, s => .ok (arr, s)
  | i + 1, arr, s =>
    match randomInterval fuel s (i + 1) with
    | .error e => .error e
    | .ok (j, s') => npShuffleAux fuel i (listSwap arr (i + 1) j) s'

def npShuffle (fuel : ℕ) (arr : List α) (s : Mt) : Except String (List α × Mt) :=
  npShuffleAux fuel (arr.length - 1) arr s

/-- Model of `rng.permutation(n)`: shuffle `arange(n)`. -/
def npPermutation (fuel n : ℕ) (s : Mt) : Except String (List ℕ × Mt) :=
  npShuffle fuel (List.range n) s

/-- Model of `rng.choice(np.arange(pop_size), size, replace=False)` (no weights):
numpy permutes the whole population and keeps the first `size` entries. -/
def npChoiceNoReplace (fuel popSize size : ℕ) (s : Mt) : Except String (List ℕ × Mt) :=
  if popSize = 0 ∧ size ≠ 0 then
    .error ("ValueError: a cannot be empty unless no samples are taken")
  else if size > popSize then
    .error ("ValueError: Cannot take a larger sample than population when replace=False")
  else
    match npPermutation fuel popSize s with
    | .error e => .error e
    | .ok (perm, s') => .ok (perm.take size, s')

/-! ## The balanced sampler: `get_random_payoff_settings` (lines 344-495)

numpy mechanics that the source leans on, modelled exactly:

* `(arr == number).any(axis=1)` row selection is a plain row filter;
* `np.where(arr == number)[1]` is the row-major flat list of matching column
  indices; the source then uses `<= 1` / `> 1` on that flat list as a boolean
  row mask, which numpy only accepts when its length equals the number of rows
  (one match per row) — a mismatch raises `IndexError`;
* `np.delete(arr, idxs, axis=0)` removes the listed row positions;
* `np.where((pool == row).all(axis=1))[0][0]` is the first index whose row
  equals `row`, raising `IndexError` when there is none;
* Python slice assignment `a[start:stop] = vals` clamps the slice to the array
  and requires `vals` to broadcast to the slice's length; in particular
  `a[-0:]` is the whole array, so for `n_random_stims = 0` the final
  `idxs_into_payoffs[-n_random_stims:] = payoff_idxs` assigns an empty array to
  all `max_ntrls` slots and raises `ValueError`;
* `np.zeros(n) * np.nan` is a NaN-filled float array, modelled as
  `List (Option ℕ)` (`none` = NaN); under this numpy version `np.unique` keeps
  every NaN (NaN ≠ NaN), so `len(np.unique(a)) == len(a)` holds exactly when
  the non-NaN entries are pairwise distinct;
* `np.random.RandomState(seed)` with an out-of-range integer seed raises; with
  `seed=None` it seeds from OS entropy, modelled by the ambient stream
  `entropy : ℕ → Mt` indexed by the construction call count. -/

/-- Column indices at which a row equals `v`. -/
def colsWhere (r : Row) (v : ℚ) : List ℕ :=
  (List.range r.length).filter (fun j => r.getD j 0 == v)

/-- Boolean row-mask application (numpy boolean fancy indexing). -/
def maskRows (rows : List Row) (mask : List Bool) : Except String (List Row) :=
  if mask.length ≠ rows.length then
    .error ("IndexError: boolean index did not match indexed array")
  else
    .ok (((rows.zip mask).filter (fun p => p.2)).map (fun p => p.1))

/-- Model of `np.delete(rows, idxs, axis=0)`. -/
def npDelete (rows : List Row) (idxs : List ℕ) : Except String (List Row) :=
  if idxs.any (fun i => decide (i ≥ rows.length)) then
    .error ("IndexError: np.delete index out of bounds")
  else
    .ok (((List.range rows.length).filter (fun i => !idxs.contains i)).map
      (fun i => rows.getD i []))

/-- Model of `np.where((rows == r).all(axis=1))[0][0]`: first row equal to `r`. -/
def findRowIdx (rows : List Row) (r : Row) : Except String ℕ :=
  match rows.findIdx? (fun x => x == r) with
  | some i => .ok i
  | none => .error ("IndexError: index 0 is out of bounds for axis 0 with size 0")

/-- Slice assignment `arr[start:stop] = vals` for the NaN-capable index array
(slice clamped; `vals` must have the slice's length, or length 1 to
broadcast). -/
def sliceAssign (arr : List (Option ℕ)) (start stop : ℕ) (vals : List ℕ) :
    Except String (List (Option ℕ)) :=
  let s' := min start arr.length
  let t' := min stop arr.length
  let len := t' - s'
  if vals.length = len then
    .ok (arr.take s' ++ vals.map some ++ arr.drop (s' + len))
  else if vals.length = 1 ∧ len ≠ 0 then
    .ok (arr.take s' ++ List.replicate len (some (vals.getD 0 0)) ++ arr.drop (s' + len))
  else
    .error ("ValueError: could not broadcast input array from shape (" ++
      toString vals.length ++ ",) into shape (" ++ toString len ++ ",)")

/-- Rows containing `number` in any of their 8 columns (lines 404-405). -/
def numSelect (rows : List Row) (v : ℚ) : List Row :=
  rows.filter (fun r => r.any (fun x => x == v))

/-- Model of `np.where(rows == v)[1]`: row-major flat list of matching column indices. -/
def matchColsFlat (rows : List Row) (v : ℚ) : List ℕ :=
  rows.flatMap (fun r => colsWhere r v)

/-- Side restriction (lines 409-414): mask the number-selected rows by whether
the flat match-column list entry is `≤ 1` (left) or `> 1` (right). -/
def sideSelect (numSel : List Row) (v : ℚ) (side : ℤ) : Except String (List Row) :=
  let cols := matchColsFlat numSel v
  if side = -1 then maskRows numSel (cols.map (fun c => decide (c ≤ 1)))
  else maskRows numSel (cols.map (fun c => decide (c > 1)))

/-- Dict `mapit_to_prob_idx = {0: 2, 1: 3, 4: 6, 5: 7}`; any other key raises. -/
def mapitToProbIdx (c : ℕ) : Except String ℕ :=
  if c = 0 then .ok 2
  else if c = 1 then .ok 3
  else if c = 4 then .ok 6
  else if c = 5 then .ok 7
  else .error ("KeyError: mapit_to_prob_idx")

/-- Lines 422-424: `probs.append(num_side_select[row_idx, prob_idx])` for each
`(row_idx, prob_idx)` along `enumerate(prob_idxs)`; a `row_idx` beyond the
rows raises. -/
def gatherProbs : List Row → List ℕ → Except String (List ℚ)
  | _, [] => .ok []
  | [], _ :: _ => .error ("IndexError: row index out of range")
  | r :: rest, p :: ps =>
    match gatherProbs rest ps with
    | .ok q => .ok (atq r p :: q)
    | .error e => .error e

/-- Model of `stim_classes = np.concatenate([outcomes * -1, outcomes])`. -/
def stim_classes : List ℤ :=
  ((List.range 9).map (fun k => -((k : ℤ) + 1))) ++ ((List.range 9).map (fun k => (k : ℤ) + 1))

/-- Model of `np.random.RandomState(seed)` at the `callIdx`-th construction: an integer
seed must be in `[0, 2^32)`; `None` draws fresh OS entropy. -/
def rngOf (seed : Option ℤ) (entropy : ℕ → Mt) (callIdx : ℕ) : Except String Mt :=
  match seed with
  | some s =>
    if 0 ≤ s ∧ s < 4294967296 then .ok (mtSeed s.toNat)
    else .error ("ValueError: Seed must be between 0 and 2**32 - 1")
  | none => .ok (entropy callIdx)

/-- Lines 404-427: the candidate-selection pipeline for one class, exactly as
the source computes it with numpy masks. -/
def numpyCandidates (reducing : List Row) (number : ℚ) (side : ℤ) (cutoff_p : ℚ) :
    Except String (List Row) := do
  let num_select := numSelect reducing number
  let num_side_select ← sideSelect num_select number side
  let num_idx_in_setting := matchColsFlat num_side_select number
  let prob_idxs ← num_idx_in_setting.mapM mapitToProbIdx
  let probs ← gatherProbs num_side_select prob_idxs
  maskRows num_side_select (probs.map (fun p => decide (p > cutoff_p)))

/-- Lines 429-466 after candidate selection: feasibility check, construction of
the generator, seeded draw without replacement, relocation of each drawn row in
the full and in the shrinking pool, deletion from the shrinking pool, the
`assert_array_equal` consistency check, and the class's slot assignment. -/
def drawPhase (pool : List Row) (n_stims_per_class : ℕ) (rngE : Except String Mt)
    (nth : ℕ) (reducing : List Row) (idxs : List (Option ℕ))
    (num_side_prob_select : List Row) :
    Except String (List Row × List (Option ℕ) × Mt) := do
  let n_stimclass_options := num_side_prob_select.length
  if n_stimclass_options < n_stims_per_class * 4 then
    .error ("RuntimeError: We want to randomly pick " ++ toString n_stims_per_class ++
      " settings from a pool of " ++ toString n_stimclass_options ++
      " settings. The pool is too small - please double check your settings.")
  else do
    let rng ← rngE
    let cr ← npChoiceNoReplace rngFuel n_stimclass_options n_stims_per_class rng
    let selected_rows := cr.1.map (fun i => num_side_prob_select.getD i [])
    let payoff_idxs ← selected_rows.mapM (findRowIdx pool)
    let reduce_idxs ← selected_rows.mapM (findRowIdx reducing)
    let reducing' ← npDelete reducing reduce_idxs
    if selected_rows ≠ payoff_idxs.map (fun i => pool.getD i []) then
      .error ("AssertionError: Arrays are not equal")
    else do
      let idxs' ← sliceAssign idxs (nth * n_stims_per_class)
        (nth * n_stims_per_class + n_stims_per_class) payoff_idxs
      .ok (reducing', idxs', cr.2)

/-- One iteration of the per-class loop (lines 399-466) for stimulus class
`stim` at loop index `nth`. -/
def classStep (pool : List Row) (cutoff_p : ℚ) (n_stims_per_class : ℕ)
    (rngE : Except String Mt) (nth : ℕ) (stim : ℤ)
    (reducing : List Row) (idxs : List (Option ℕ)) :
    Except String (List Row × List (Option ℕ) × Mt) := do
  let number : ℚ := (stim.natAbs : ℚ)
  let side : ℤ := Int.sign stim
  let num_side_prob_select ← numpyCandidates reducing number side cutoff_p
  drawPhase pool n_stims_per_class rngE nth reducing idxs num_side_prob_select

/-- The 18-class loop; `mkRng nth` is the `RandomState` constructed inside the
`nth` iteration (the source re-seeds at every class).  The generator of the
last iteration is what the remainder fill and the final permutation go on to
use. -/
def classLoop (pool : List Row) (cutoff_p : ℚ) (n_stims_per_class : ℕ)
    (mkRng : ℕ → Except String Mt) :
    ℕ → List ℤ → List Row → List (Option ℕ) → Mt →
    Except String (List Row × List (Option ℕ) × Mt)
  | _, [], reducing, idxs, rngLast => .ok (reducing, idxs, rngLast)
  | nth, stim :: rest, reducing, idxs, _ => do
    let st ← classStep pool cutoff_p n_stims_per_class (mkRng nth) nth stim reducing idxs
    classLoop pool cutoff_p n_stims_per_class mkRng (nth + 1) rest st.1 st.2.1 st.2.2

/-- Lines 469-495 after the class loop: the two assertions, the remainder
fill drawn from what is left of the shrinking pool (using the generator left
over from the last class iteration), the `[-n_random_stims:]` slot assignment
(for `n_random_stims = 0` Python's `-0` makes this the whole array and the
assignment of an empty array raises `ValueError`), the gather of the selected
rows, and the final permutation. -/
def samplerTail (max_ntrls : ℕ) (payoff_settings : List Row) (n_random_stims : ℕ)
    (reducing : List Row) (idxs : List (Option ℕ)) (rng : Mt) :
    Except String (List Row) := do
  if (idxs.countP (fun o => o.isNone)) ≠ n_random_stims then
    .error ("AssertionError: np.sum(np.isnan(idxs_into_payoffs)) == n_random_stims")
  else if ¬(idxs.filterMap id).Nodup then
    .error ("AssertionError: len(np.unique(idxs_into_payoffs)) == len(idxs_into_payoffs)")
  else do
    let lc ← npChoiceNoReplace rngFuel reducing.length n_random_stims rng
    let selected_rows := lc.1.map (fun i => reducing.getD i [])
    let payoff_idxs ← selected_rows.mapM (findRowIdx payoff_settings)
    let start := if n_random_stims = 0 then 0 else max_ntrls - n_random_stims
    let idxs2 ← sliceAssign idxs start max_ntrls payoff_idxs
    let finalIdxs ← idxs2.mapM (fun o => match o with
      | some i => Except.ok i
      | none => Except.error ("ValueError: NaN in idxs_into_payoffs.astype(int)"))
    let rand ← finalIdxs.mapM (fun i => match payoff_settings.get? i with
      | some r => Except.ok r
      | none => Except.error ("IndexError: row index out of bounds"))
    let pr ← npPermutation rngFuel max_ntrls lc.2
    let out ← pr.1.mapM (fun i => match rand.get? i with
      | some r => Except.ok r
      | none => Except.error ("IndexError: permutation index out of bounds"))
    .ok out

/-- Model of `get_random_payoff_settings(max_ntrls, payoff_settings, cutoff_p, seed)`
(lines 344-495).  `entropy` models the OS entropy consulted only when
`seed = None`; the dummy initial generator passed to the loop is never used
(the loop always runs 18 iterations and re-seeds first). -/
def get_random_payoff_settings (max_ntrls : ℕ) (payoff_settings : List Row)
    (cutoff_p : ℚ) (seed : Option ℤ) (entropy : ℕ → Mt) :
    Except String (List Row) := do
  let n_classes := stim_classes.length
  let n_stims_per_class := max_ntrls / n_classes
  let n_random_stims := max_ntrls - n_stims_per_class * n_classes
  let lp ← classLoop payoff_settings cutoff_p n_stims_per_class (rngOf seed entropy)
    0 stim_classes payoff_settings (List.replicate max_ntrls none) (mtSeed 0)
  samplerTail max_ntrls payoff_settings n_random_stims lp.1 lp.2.1 lp.2.2

/-! ## The Balanced Sampler as the specification words it (for claim C5)

`specCandidates` is §4.2 step 2a-2b stated directly as a row predicate; the
draw/relocate/record phase and the remainder-and-permutation tail are the same
steps the source performs, so the two reference algorithms below differ from
the embedded source only in the candidate wording and in the generator policy:
`sample_balanced_single_rng` seeds one generator at the start of the call and
threads its continuation through all per-class draws, the remainder fill and
the final permutation (the reference algorithm named by the claim);
`sample_balanced_reseed` re-initializes the generator from the same seed at
the start of every class iteration, exactly as the source does. -/

/-- Spec section 4.2, steps 2a-2b: rows of the current pool containing the class's magnitude
on its side (columns 0-1 left, 4-5 right) with the probability paired with
that occurrence above `cutoff_p`. -/
def specCandidates (reducing : List Row) (v : ℚ) (side : ℤ) (cutoff_p : ℚ) : List Row :=
  reducing.filter (fun r =>
    if side = -1 then
      (r.getD 0 0 == v && decide (r.getD 2 0 > cutoff_p)) ||
      (r.getD 1 0 == v && decide (r.getD 3 0 > cutoff_p))
    else
      (r.getD 4 0 == v && decide (r.getD 6 0 > cutoff_p)) ||
      (r.getD 5 0 == v && decide (r.getD 7 0 > cutoff_p)))

/-- One per-class step of the spec-worded sampler. -/
def specClassStep (pool : List Row) (cutoff_p : ℚ) (n_stims_per_class : ℕ)
    (rngE : Except String Mt) (nth : ℕ) (stim : ℤ)
    (reducing : List Row) (idxs : List (Option ℕ)) :
    Except String (List Row × List (Option ℕ) × Mt) :=
  drawPhase pool n_stims_per_class rngE nth reducing idxs
    (specCandidates reducing ((stim.natAbs : ℚ)) (Int.sign stim) cutoff_p)

/-- Spec-worded class loop, one generator continuation threaded throughout. -/
def specClassLoopSingle (pool : List Row) (cutoff_p : ℚ) (n_stims_per_class : ℕ) :
    ℕ → List ℤ → List Row → List (Option ℕ) → Mt →
    Except String (List Row × List (Option ℕ) × Mt)
  | _, [], reducing, idxs, rng => .ok (reducing, idxs, rng)
  | nth, stim :: rest, reducing, idxs, rng => do
    let st ← specClassStep pool cutoff_p n_stims_per_class (Except.ok rng) nth stim reducing idxs
    specClassLoopSingle pool cutoff_p n_stims_per_class (nth + 1) rest st.1 st.2.1 st.2.2

/-- Spec-worded class loop, generator re-initialized at every class. -/
def specClassLoopReseed (pool : List Row) (cutoff_p : ℚ) (n_stims_per_class : ℕ)
    (mkRng : ℕ → Except String Mt) :
    ℕ → List ℤ → List Row → List (Option ℕ) → Mt →
    Except String (List Row × List (Option ℕ) × Mt)
  | _, [], reducing, idxs, rngLast => .ok (reducing, idxs, rngLast)
  | nth, stim :: rest, reducing, idxs, _ => do
    let st ← specClassStep pool cutoff_p n_stims_per_class (mkRng nth) nth stim reducing idxs
    specClassLoopReseed pool cutoff_p n_stims_per_class mkRng (nth + 1) rest st.1 st.2.1 st.2.2

/-- The claim's reference algorithm: one seeded generator initialized at the
start of the call; all 18 per-class draws, the remainder fill and the final
permutation consume that single generator's continuation. -/
def sample_balanced_single_rng (max_ntrls : ℕ) (payoff_settings : List Row)
    (cutoff_p : ℚ) (seed : Option ℤ) (entropy : ℕ → Mt) :
    Except String (List Row) := do
  let n_classes := stim_classes.length
  let n_stims_per_class := max_ntrls / n_classes
  let n_random_stims := max_ntrls - n_stims_per_class * n_classes
  let rng0 ← rngOf seed entropy 0
  let lp ← specClassLoopSingle payoff_settings cutoff_p n_stims_per_class
    0 stim_classes payoff_settings (List.replicate max_ntrls none) rng0
  samplerTail max_ntrls payoff_settings n_random_stims lp.1 lp.2.1 lp.2.2

/-- The reference algorithm amended to the source's actual generator policy:
re-initialize the seeded generator at the start of every class iteration; the
remainder fill and final permutation then continue the 18th class's
generator. -/
def sample_balanced_reseed (max_ntrls : ℕ) (payoff_settings : List Row)
    (cutoff_p : ℚ) (seed : Option ℤ) (entropy : ℕ → Mt) :
    Except String (List Row) := do
  let n_classes := stim_classes.length
  let n_stims_per_class := max_ntrls / n_classes
  let n_random_stims := max_ntrls - n_stims_per_class * n_classes
  let lp ← specClassLoopReseed payoff_settings cutoff_p n_stims_per_class (rngOf seed entropy)
    0 stim_classes payoff_settings (List.replicate max_ntrls none) (mtSeed 0)
  samplerTail max_ntrls payoff_settings n_random_stims lp.1 lp.2.1 lp.2.2

/-! ## Equivalence of the source's numpy mask mechanics with the spec wording

On pools whose rows have 8 columns and contain any magnitude value `1..9` in
at most one column, and only in magnitude columns (0, 1, 4, 5) — true of every
enumerator pool, whose probabilities lie strictly between 0 and 1 and whose
four magnitudes are distinct — the source's flat `np.where` column list has
exactly one entry per selected row, the boolean masks line up row by row, and
the whole candidate pipeline equals the spec's direct row filter. -/

/-- Well-formedness of a row for the sampler's mask mechanics: 8 columns, and
each magnitude value 1..9 occurs in at most one column, only in columns
0, 1, 4 or 5. -/
def okRowB (r : Row) : Bool :=
  (r.length == 8) &&
  initial_mags.all (fun v =>
    (decide ((colsWhere r v).length ≤ 1)) &&
    (colsWhere r v).all (fun c => (c == 0) || (c == 1) || (c == 4) || (c == 5)))

/-- The column where a (uniquely occurring) value sits in a row. -/
def colOf (v : ℚ) (r : Row) : ℕ := (colsWhere r v).headD 0

/-- Dict `mapit_to_prob_idx` as the total function it is on its four keys. -/
def probColOf : ℕ → ℕ
  | 0 => 2
  | 1 => 3
  | 4 => 6
  | 5 => 7
  | _ => 0

theorem mapitToProbIdx_ok {c : ℕ} (h : c = 0 ∨ c = 1 ∨ c = 4 ∨ c = 5) :
    mapitToProbIdx c = .ok (probColOf c) := by
  rcases h with rfl | rfl | rfl | rfl <;> rfl

/-- A boolean mask that is a pointwise function of the rows filters exactly. -/
theorem maskRows_map_self (rows : List Row) (g : Row → Bool) :
    maskRows rows (rows.map g) = .ok (rows.filter g) := by
  unfold maskRows
  rw [if_neg (by simp)]
  congr 1
  induction rows with
  | nil => rfl
  | cons r rest ih =>
    simp only [List.map_cons, List.zip_cons_cons, List.filter_cons]
    cases hg : g r
    · simpa [hg] using ih
    · simpa [hg] using ih

/-- When every row matches in exactly one column, the flat `np.where` column
list is the per-row column map. -/
theorem matchColsFlat_of_unique {v : ℚ} {rows : List Row}
    (h : ∀ r ∈ rows, colsWhere r v = [colOf v r]) :
    matchColsFlat rows v = rows.map (colOf v) := by
  induction rows with
  | nil => rfl
  | cons r rest ih =>
    unfold matchColsFlat at *
    simp only [List.flatMap_cons, List.map_cons]
    rw [h r (List.mem_cons_self ..), ih (fun x hx => h x (List.mem_cons_of_mem _ hx))]
    rfl

theorem mapM_mapit_ok {l : List Row} {v : ℚ}
    (h : ∀ r ∈ l, colOf v r = 0 ∨ colOf v r = 1 ∨ colOf v r = 4 ∨ colOf v r = 5) :
    (l.map (colOf v)).mapM mapitToProbIdx = .ok (l.map (fun r => probColOf (colOf v r))) := by
  induction l with
  | nil => rfl
  | cons r rest ih =>
    simp only [List.map_cons, List.mapM_cons]
    rw [mapitToProbIdx_ok (h r (List.mem_cons_self ..)),
      ih (fun x hx => h x (List.mem_cons_of_mem _ hx))]
    rfl

theorem gatherProbs_map (l : List Row) (h : Row → ℕ) :
    gatherProbs l (l.map h) = .ok (l.map (fun r => atq r (h r))) := by
  induction l with
  | nil => rfl
  | cons r rest ih =>
    simp only [List.map_cons]
    unfold gatherProbs
    rw [ih]

theorem colsWhere_mem_iff {r : Row} {v : ℚ} {j : ℕ} :
    j ∈ colsWhere r v ↔ j < r.length ∧ r.getD j 0 = v := by
  unfold colsWhere
  simp [List.mem_filter, List.mem_range]

theorem any_iff_colsWhere {r : Row} {v : ℚ} :
    (r.any (fun x => x == v)) = true ↔ colsWhere r v ≠ [] := by
  rw [List.any_eq_true]
  constructor
  · rintro ⟨x, hx, hxv⟩
    rw [beq_iff_eq] at hxv
    subst hxv
    obtain ⟨j, hj, hget⟩ := List.mem_iff_getElem.mp hx
    intro hemp
    have hmem : j ∈ colsWhere r x := colsWhere_mem_iff.mpr
      ⟨hj, by rw [List.getD_eq_getElem r 0 hj]; exact hget⟩
    rw [hemp] at hmem
    exact absurd hmem (List.not_mem_nil _)
  · intro hne
    obtain ⟨j, hj⟩ := List.exists_mem_of_ne_nil _ hne
    obtain ⟨hlt, hget⟩ := colsWhere_mem_iff.mp hj
    refine ⟨v, ?_, by simp⟩
    rw [← hget, List.getD_eq_getElem r 0 hlt]
    exact List.getElem_mem hlt

theorem okRowB_elim {r : Row} (hok : okRowB r = true) {v : ℚ} (hv : v ∈ initial_mags) :
    r.length = 8 ∧ (colsWhere r v = [] ∨
      (colsWhere r v = [colOf v r] ∧
        (colOf v r = 0 ∨ colOf v r = 1 ∨ colOf v r = 4 ∨ colOf v r = 5))) := by
  unfold okRowB at hok
  rw [Bool.and_eq_true, List.all_eq_true] at hok
  obtain ⟨hlen, hall⟩ := hok
  have h := hall v hv
  rw [Bool.and_eq_true] at h
  obtain ⟨hle, hcols⟩ := h
  have hle' : (colsWhere r v).length ≤ 1 := of_decide_eq_true hle
  refine ⟨by simpa using hlen, ?_⟩
  rcases hcw : colsWhere r v with _ | ⟨c, _ | ⟨c2, rest⟩⟩
  · exact Or.inl rfl
  · rw [hcw] at hcols
    have hc := List.all_eq_true.mp hcols c (List.mem_cons_self ..)
    simp only [Bool.or_eq_true, beq_iff_eq] at hc
    have hcolof : colOf v r = c := by
      unfold colOf
      rw [hcw]
      rfl
    rw [hcolof]
    refine Or.inr ⟨rfl, ?_⟩
    tauto
  · rw [hcw] at hle'
    simp at hle'

/-- Under the well-formedness conditions, the source's numpy candidate
pipeline computes exactly the spec's direct filter. -/
theorem numpyCandidates_eq_spec {reducing : List Row} {v : ℚ} {side : ℤ} {cutoff_p : ℚ}
    (hok : ∀ r ∈ reducing, okRowB r = true) (hv : v ∈ initial_mags)
    (hside : side = -1 ∨ side = 1) :
    numpyCandidates reducing v side cutoff_p =
      .ok (specCandidates reducing v side cutoff_p) := by
  have huniq : ∀ r ∈ numSelect reducing v, colsWhere r v = [colOf v r] ∧
      (colOf v r = 0 ∨ colOf v r = 1 ∨ colOf v r = 4 ∨ colOf v r = 5) ∧
      r.length = 8 := by
    intro r hr
    have hmem := List.mem_of_mem_filter hr
    have hany := List.of_mem_filter hr
    obtain ⟨hlen, hcase⟩ := okRowB_elim (hok r hmem) hv
    rcases hcase with hemp | ⟨hcw, hcol⟩
    · exact absurd hemp (any_iff_colsWhere.mp hany)
    · exact ⟨hcw, hcol, hlen⟩
  rcases hside with rfl | rfl
  -- left side (`side = -1`)
  · have hsideSel : sideSelect (numSelect reducing v) v (-1) =
        .ok ((numSelect reducing v).filter (fun r => decide (colOf v r ≤ 1))) := by
      unfold sideSelect
      rw [matchColsFlat_of_unique (fun r hr => (huniq r hr).1)]
      rw [if_pos rfl, List.map_map]
      exact maskRows_map_self _ _
    unfold numpyCandidates
    dsimp only
    rw [hsideSel]
    simp only [Bind.bind, Except.bind]
    rw [matchColsFlat_of_unique
      (fun r hr => (huniq r (List.mem_of_mem_filter hr)).1)]
    rw [mapM_mapit_ok (fun r hr => (huniq r (List.mem_of_mem_filter hr)).2.1)]
    simp only [Bind.bind, Except.bind]
    rw [gatherProbs_map]
    simp only [Bind.bind, Except.bind]
    rw [List.map_map]
    rw [maskRows_map_self]
    congr 1
    rw [List.filter_filter]
    unfold numSelect
    rw [List.filter_filter]
    unfold specCandidates
    apply List.filter_congr
    intro r hr
    obtain ⟨hlen, hcase⟩ := okRowB_elim (hok r hr) hv
    rw [if_pos rfl, Bool.eq_iff_iff]
    simp only [Function.comp, Bool.and_eq_true, Bool.or_eq_true, beq_iff_eq,
      decide_eq_true_iff, any_iff_colsWhere]
    rcases hcase with hemp | ⟨hcw, hcol⟩
    · constructor
      · rintro ⟨⟨-, -⟩, hne⟩
        exact absurd hemp hne
      · rintro (⟨h0, -⟩ | ⟨h1, -⟩)
        · have h := colsWhere_mem_iff.mpr ⟨(by rw [hlen]; omega : (0:ℕ) < r.length), h0⟩
          rw [hemp] at h
          exact absurd h (List.not_mem_nil _)
        · have h := colsWhere_mem_iff.mpr ⟨(by rw [hlen]; omega : (1:ℕ) < r.length), h1⟩
          rw [hemp] at h
          exact absurd h (List.not_mem_nil _)
    · have hself : r.getD (colOf v r) 0 = v := by
        have h : colOf v r ∈ colsWhere r v := by
          rw [hcw]
          exact List.mem_cons_self ..
        exact (colsWhere_mem_iff.mp h).2
      have huc : ∀ j : ℕ, j < 8 → r.getD j 0 = v → j = colOf v r := by
        intro j hj hgv
        have h := colsWhere_mem_iff.mpr ⟨(by rw [hlen]; omega : j < r.length), hgv⟩
        rw [hcw] at h
        simpa using h
      have hnonempty : colsWhere r v ≠ [] := by
        rw [hcw]
        simp
      constructor
      · rintro ⟨⟨hcut, hle⟩, -⟩
        rcases hcol with hc | hc | hc | hc
        · left
          refine ⟨by rw [← hc]; exact hself, ?_⟩
          rw [hc] at hcut
          simpa [probColOf, atq] using hcut
        · right
          refine ⟨by rw [← hc]; exact hself, ?_⟩
          rw [hc] at hcut
          simpa [probColOf, atq] using hcut
        · omega
        · omega
      · rintro (⟨h0, hcut⟩ | ⟨h1, hcut⟩)
        · have hc0 := huc 0 (by omega) h0
          refine ⟨⟨?_, by omega⟩, hnonempty⟩
          rw [← hc0]
          simpa [probColOf, atq] using hcut
        · have hc1 := huc 1 (by omega) h1
          refine ⟨⟨?_, by omega⟩, hnonempty⟩
          rw [← hc1]
          simpa [probColOf, atq] using hcut
  -- right side (`side = 1`)
  · have hsideSel : sideSelect (numSelect reducing v) v 1 =
        .ok ((numSelect reducing v).filter (fun r => decide (colOf v r > 1))) := by
      unfold sideSelect
      rw [matchColsFlat_of_unique (fun r hr => (huniq r hr).1)]
      rw [if_neg (by omega), List.map_map]
      exact maskRows_map_self _ _
    unfold numpyCandidates
    dsimp only
    rw [hsideSel]
    simp only [Bind.bind, Except.bind]
    rw [matchColsFlat_of_unique
      (fun r hr => (huniq r (List.mem_of_mem_filter hr)).1)]
    rw [mapM_mapit_ok (fun r hr => (huniq r (List.mem_of_mem_filter hr)).2.1)]
    simp only [Bind.bind, Except.bind]
    rw [gatherProbs_map]
    simp only [Bind.bind, Except.bind]
    rw [List.map_map]
    rw [maskRows_map_self]
    congr 1
    rw [List.filter_filter]
    unfold numSelect
    rw [List.filter_filter]
    unfold specCandidates
    apply List.filter_congr
    intro r hr
    obtain ⟨hlen, hcase⟩ := okRowB_elim (hok r hr) hv
    rw [if_neg (by omega), Bool.eq_iff_iff]
    simp only [Function.comp, Bool.and_eq_true, Bool.or_eq_true, beq_iff_eq,
      decide_eq_true_iff, any_iff_colsWhere]
    rcases hcase with hemp | ⟨hcw, hcol⟩
    · constructor
      · rintro ⟨⟨-, -⟩, hne⟩
        exact absurd hemp hne
      · rintro (⟨h4, -⟩ | ⟨h5, -⟩)
        · have h := colsWhere_mem_iff.mpr ⟨(by rw [hlen]; omega : (4:ℕ) < r.length), h4⟩
          rw [hemp] at h
          exact absurd h (List.not_mem_nil _)
        · have h := colsWhere_mem_iff.mpr ⟨(by rw [hlen]; omega : (5:ℕ) < r.length), h5⟩
          rw [hemp] at h
          exact absurd h (List.not_mem_nil _)
    · have hself : r.getD (colOf v r) 0 = v := by
        have h : colOf v r ∈ colsWhere r v := by
          rw [hcw]
          exact List.mem_cons_self ..
        exact (colsWhere_mem_iff.mp h).2
      have huc : ∀ j : ℕ, j < 8 → r.getD j 0 = v → j = colOf v r := by
        intro j hj hgv
        have h := colsWhere_mem_iff.mpr ⟨(by rw [hlen]; omega : j < r.length), hgv⟩
        rw [hcw] at h
        simpa using h
      have hnonempty : colsWhere r v ≠ [] := by
        rw [hcw]
        simp
      constructor
      · rintro ⟨⟨hcut, hgt⟩, -⟩
        rcases hcol with hc | hc | hc | hc
        · omega
        · omega
        · left
          refine ⟨by rw [← hc]; exact hself, ?_⟩
          rw [hc] at hcut
          simpa [probColOf, atq] using hcut
        · right
          refine ⟨by rw [← hc]; exact hself, ?_⟩
          rw [hc] at hcut
          simpa [probColOf, atq] using hcut
      · rintro (⟨h4, hcut⟩ | ⟨h5, hcut⟩)
        · have hc4 := huc 4 (by omega) h4
          refine ⟨⟨?_, by omega⟩, hnonempty⟩
          rw [← hc4]
          simpa [probColOf, atq] using hcut
        · have hc5 := huc 5 (by omega) h5
          refine ⟨⟨?_, by omega⟩, hnonempty⟩
          rw [← hc5]
          simpa [probColOf, atq] using hcut

theorem npDelete_sub {rows rows' : List Row} {idxs : List ℕ}
    (h : npDelete rows idxs = .ok rows') : ∀ x ∈ rows', x ∈ rows := by
  unfold npDelete at h
  split at h
  · simp at h
  · simp only [Except.ok.injEq] at h
    subst h
    intro x hx
    obtain ⟨i, hi, rfl⟩ := List.mem_map.mp hx
    have hrange := List.mem_range.mp (List.mem_filter.mp hi).1
    rw [List.getD_eq_getElem rows [] hrange]
    exact List.getElem_mem _

/-- A successful draw phase only shrinks the pool: every row of the returned
shrinking pool was already in it. -/
theorem drawPhase_reducing_sub {pool : List Row} {n : ℕ} {rngE : Except String Mt}
    {nth : ℕ} {reducing : List Row} {idxs : List (Option ℕ)} {cands : List Row}
    {st : List Row × List (Option ℕ) × Mt}
    (h : drawPhase pool n rngE nth reducing idxs cands = .ok st) :
    ∀ x ∈ st.1, x ∈ reducing := by
  unfold drawPhase at h
  dsimp only at h
  split at h
  · simp at h
  · simp only [Bind.bind, Except.bind] at h
    split at h
    · simp at h
    · split at h
      · simp at h
      · split at h
        · simp at h
        · split at h
          · simp at h
          · split at h
            · simp at h
            · rename_i red hdel
              split at h
              · simp at h
              · split at h
                · simp at h
                · simp only [Except.ok.injEq] at h
                  subst h
                  exact npDelete_sub hdel

theorem classStep_eq_spec {pool : List Row} {cutoff_p : ℚ} {n : ℕ}
    {rngE : Except String Mt} {nth : ℕ} {stim : ℤ} {reducing : List Row}
    {idxs : List (Option ℕ)} (hok : ∀ r ∈ reducing, okRowB r = true)
    (hv : ((stim.natAbs : ℕ) : ℚ) ∈ initial_mags)
    (hsig : Int.sign stim = -1 ∨ Int.sign stim = 1) :
    classStep pool cutoff_p n rngE nth stim reducing idxs =
      specClassStep pool cutoff_p n rngE nth stim reducing idxs := by
  unfold classStep specClassStep
  dsimp only
  rw [numpyCandidates_eq_spec hok hv hsig]
  simp only [Bind.bind, Except.bind]

/-- On a well-formed pool, the source's per-class loop computes exactly the
spec-worded per-class loop with the source's re-seeding generator policy. -/
theorem classLoop_eq_specReseed {pool : List Row} {cutoff_p : ℚ} {n : ℕ}
    {mkRng : ℕ → Except String Mt} :
    ∀ (stims : List ℤ) (nth : ℕ) (reducing : List Row) (idxs : List (Option ℕ))
      (rl : Mt), (∀ r ∈ reducing, okRowB r = true) →
      (∀ stim ∈ stims, ((stim.natAbs : ℕ) : ℚ) ∈ initial_mags ∧
        (Int.sign stim = -1 ∨ Int.sign stim = 1)) →
      classLoop pool cutoff_p n mkRng nth stims reducing idxs rl =
        specClassLoopReseed pool cutoff_p n mkRng nth stims reducing idxs rl := by
  intro stims
  induction stims with
  | nil =>
    intro nth red idxs rl _ _
    rfl
  | cons stim rest ih =>
    intro nth red idxs rl hok hstims
    obtain ⟨hvmem, hsig⟩ := hstims stim (List.mem_cons_self ..)
    unfold classLoop specClassLoopReseed
    simp only [Bind.bind, Except.bind]
    rw [classStep_eq_spec hok hvmem hsig]
    cases hst : specClassStep pool cutoff_p n (mkRng nth) nth stim red idxs with
    | error e => rfl
    | ok st =>
      have hsub : ∀ x ∈ st.1, x ∈ red := drawPhase_reducing_sub hst
      exact ih (nth + 1) st.1 st.2.1 st.2.2 (fun r hr => hok r (hsub r hr))
        (fun x hx => hstims x (List.mem_cons_of_mem _ hx))

/-- The 18 stimulus classes all carry a magnitude 1..9 and a definite side. -/
theorem stim_classes_wf : ∀ stim ∈ stim_classes,
    ((stim.natAbs : ℕ) : ℚ) ∈ initial_mags ∧
      (Int.sign stim = -1 ∨ Int.sign stim = 1) := by decide

/-- C5 amended.  On any pool whose rows have 8 columns and contain each
magnitude 1..9 at most once and only in magnitude columns (true of every
enumerator pool), `get_random_payoff_settings` is equivalent to the reference
algorithm amended to the source's actual generator policy: the seeded
generator is re-initialized at the start of every per-class draw, and the
remainder fill and final permutation consume the continuation of the 18th
class's generator — not of a single generator initialized once per call. -/
theorem C5_amended_reseed_equivalence (max_ntrls : ℕ) (payoff_settings : List Row)
    (cutoff_p : ℚ) (seed : Option ℤ) (entropy : ℕ → Mt)
    (hpool : ∀ r ∈ payoff_settings, okRowB r = true) :
    get_random_payoff_settings max_ntrls payoff_settings cutoff_p seed entropy =
      sample_balanced_reseed max_ntrls payoff_settings cutoff_p seed entropy := by
  unfold get_random_payoff_settings sample_balanced_reseed
  dsimp only
  rw [classLoop_eq_specReseed stim_classes 0 payoff_settings
    (List.replicate max_ntrls none) (mtSeed 0) hpool stim_classes_wf]

/-- A small well-formed pool used for the concrete sampler evaluations. -/
def pool4 : List Row :=
  [[1, 2, 1/2, 1/2, 3, 4, 1/2, 1/2],
   [5, 6, 1/2, 1/2, 7, 8, 1/2, 1/2],
   [2, 3, 1/2, 1/2, 4, 5, 1/2, 1/2],
   [6, 7, 1/2, 1/2, 8, 9, 1/2, 1/2]]

/-- A fixed ambient-entropy stream (irrelevant whenever an integer seed is
supplied). -/
def entropyZero : ℕ → Mt := fun _ => mtSeed 0

/-- C5 witness for the amended equivalence at a concrete input. -/
theorem C5_amended_reseed_equivalence_witness :
    (∀ r ∈ pool4, okRowB r = true) ∧
    get_random_payoff_settings 1 pool4 (-1) (some 1) entropyZero =
      sample_balanced_reseed 1 pool4 (-1) (some 1) entropyZero :=
  ⟨by decide, C5_amended_reseed_equivalence 1 pool4 (-1) (some 1) entropyZero (by decide)⟩

set_option maxHeartbeats 4000000 in
/-- C5 counterexample.  At `max_ntrls = 1`, `pool4`, `cutoff_p = -1`,
`seed = 1`, the source returns a different row than the claim's reference
algorithm (single generator seeded once at the start of the call and threaded
through all draws): the source re-seeds `RandomState(seed)` inside every class
iteration, so its remainder draw runs on the continuation of the 18th class's
freshly seeded generator, while the reference's remainder draw runs on a
stream advanced by all previous classes' draws. -/
theorem C5_counterexample_single_rng_differs :
    get_random_payoff_settings 1 pool4 (-1) (some 1) entropyZero ≠
      sample_balanced_single_rng 1 pool4 (-1) (some 1) entropyZero := by decide

/-- C4.  With an integer seed, `get_random_payoff_settings` is
deterministic: the ambient OS-entropy stream (consulted only when
`seed = None`) is irrelevant, so any two calls with the same
`(max_ntrls, payoff_settings, cutoff_p, seed)` produce the identical outcome —
the same output array element for element, or the same error. -/
theorem C4_seed_determinism (max_ntrls : ℕ) (payoff_settings : List Row)
    (cutoff_p : ℚ) (s : ℤ) (entropy1 entropy2 : ℕ → Mt) :
    get_random_payoff_settings max_ntrls payoff_settings cutoff_p (some s) entropy1 =
      get_random_payoff_settings max_ntrls payoff_settings cutoff_p (some s) entropy2 := by
  unfold get_random_payoff_settings
  have h : rngOf (some s) entropy1 = rngOf (some s) entropy2 := by
    funext k
    rfl
  rw [h]

/-- Cyclic magnitudes 1..9. -/
def sig9 (k : ℕ) : ℚ := ((k % 9 + 1 : ℕ) : ℚ)

def mkPoolRow (m a b c : ℕ) : Row :=
  [sig9 m, sig9 (m + a), 1/2, 1/2, sig9 (m + b), sig9 (m + c), 1/2, 1/2]

/-- A 45-row pool (five cyclic families of 9 rows) giving every one of the 18
stimulus classes ten candidate rows, so that with `n_trials = 18`
(`n_stims_per_class = 1`) every per-class feasibility check passes
comfortably. -/
def poolFeasible : List Row :=
  (List.range 9).flatMap (fun m =>
    [mkPoolRow m 1 2 3, mkPoolRow m 2 4 6, mkPoolRow m 3 6 1,
     mkPoolRow m 4 8 3, mkPoolRow m 2 5 7])

set_option maxHeartbeats 8000000 in
/-- C2.  Failing input: `max_ntrls = 18` (divisible by 18, so
`n_random_stims = 0`), a pool passing every per-class feasibility check,
`cutoff_p = -1`, `seed = 1`.  All 18 class draws succeed, but the final
remainder assignment `idxs_into_payoffs[-n_random_stims:] = payoff_idxs` is
`[-0:]`, i.e. the whole 18-slot array, to which numpy cannot broadcast the
empty remainder array: the call raises instead of returning 18 rows. -/
theorem C2_divisible_trials_raise :
    get_random_payoff_settings 18 poolFeasible (-1) (some 1) entropyZero =
      .error ("ValueError: could not broadcast input array from shape (0,) into shape (18,)") := by
  decide

set_option maxHeartbeats 8000000 in
/-- C3.  Failing input for the balance claim: for `n_trials` divisible by
18 (the only case the claim speaks about, here 18 itself, with a pool passing
every feasibility check and a second seed) the sampler never returns any trial
settings at all — the `[-0:]` slice assignment raises — so no returned set
exists in which every class could meet its `floor(n_trials/18)` quota. -/
theorem C3_divisible_trials_raise :
    get_random_payoff_settings 18 poolFeasible (-1) (some 2) entropyZero =
      .error ("ValueError: could not broadcast input array from shape (0,) into shape (18,)") := by
  decide








